import Mathlib

set_option maxHeartbeats 1000000
set_option maxRecDepth 8192

/-!
Verification of an RGBA raster cleanup pipeline consisting of three stages:
a background segmenter (`remove_bg.py`: flood fill from the four image
corners under a color-distance threshold), a connected-component filter
(`clean_artifacts.py`: keep only the largest 8-connected region of non-zero
alpha), and an edge refiner (`refine_edges.py`: 3×3 erosion of the alpha
channel followed by a 3×3 Gaussian blur).

Pixels are 4-tuples of 8-bit channels, modelled as natural numbers; an
image is a pair of dimensions together with a total pixel-lookup function
on integer coordinates `(x, y)`.
-/

/-- One RGBA pixel: channels `r`, `g`, `b`, `a`, each an 8-bit value
modelled as a natural number. -/
structure Pixel where
  r : Nat
  g : Nat
  b : Nat
  a : Nat
deriving DecidableEq, Repr

/-- An RGBA raster: width, height, and a pixel lookup on integer
coordinates. Coordinates are `(x, y)` with `0 ≤ x < width` and
`0 ≤ y < height`; the behaviour of `pix` outside those bounds is
irrelevant to (and untouched by) every stage. -/
structure Img where
  width : Nat
  height : Nat
  pix : Int × Int → Pixel

/-- Coordinate `(x, y)` lies inside a `w × h` raster. -/
def inBounds (w h : Nat) (p : Int × Int) : Prop :=
  0 ≤ p.1 ∧ p.1 < (w : Int) ∧ 0 ≤ p.2 ∧ p.2 < (h : Int)

instance (w h : Nat) (p : Int × Int) : Decidable (inBounds w h p) := by
  unfold inBounds; infer_instance

/-- All in-bounds coordinates of a `w × h` raster in row-major scan order
(y outer, x inner), the order in which NumPy/OpenCV arrays are traversed. -/
def positionsRM (w h : Nat) : List (Int × Int) :=
  (List.range h).flatMap (fun y => (List.range w).map (fun (x : Nat) => ((x : Int), (y : Int))))

theorem mem_positionsRM {w h : Nat} {p : Int × Int} :
    p ∈ positionsRM w h ↔ inBounds w h p := by
  obtain ⟨x, y⟩ := p
  unfold positionsRM inBounds
  simp only [List.mem_flatMap, List.mem_map, List.mem_range, Prod.mk.injEq]
  constructor
  · rintro ⟨b, hb, a, ha, rfl, rfl⟩
    omega
  · rintro ⟨h1, h2, h3, h4⟩
    exact ⟨y.toNat, by omega, x.toNat, by omega, by omega, by omega⟩

theorem length_positionsRM (w h : Nat) : (positionsRM w h).length = h * w := by
  induction h with
  | zero => simp [positionsRM]
  | succ n ih =>
    rw [positionsRM, List.range_succ, List.flatMap_append] at *
    simp only [List.flatMap_cons, List.flatMap_nil, List.append_nil, List.length_append,
      List.length_map, List.length_range] at *
    rw [ih, Nat.succ_mul]

/-- Validity of a raster: every channel of every in-bounds pixel fits in
8 bits. -/
def Img.Valid (img : Img) : Prop :=
  ∀ p ∈ positionsRM img.width img.height,
    (img.pix p).r < 256 ∧ (img.pix p).g < 256 ∧
    (img.pix p).b < 256 ∧ (img.pix p).a < 256

instance (img : Img) : Decidable img.Valid := by
  unfold Img.Valid; infer_instance

/-- Finset of all in-bounds coordinates of a `w × h` raster. -/
def inBF (w h : Nat) : Finset (Int × Int) := (positionsRM w h).toFinset

theorem mem_inBF {w h : Nat} {p : Int × Int} : p ∈ inBF w h ↔ inBounds w h p := by
  rw [inBF, List.mem_toFinset, mem_positionsRM]

theorem card_inBF_le (w h : Nat) : (inBF w h).card ≤ h * w := by
  calc (inBF w h).card ≤ (positionsRM w h).length := List.toFinset_card_le _
    _ = h * w := length_positionsRM w h

/-! ## Background Segmenter (`remove_bg.py`) -/

/-- Squared Euclidean RGB distance between two pixels. The source's
`color_dist` returns `sqrt(r² + g² + b²)` as a float and compares it with
the integer threshold `T`; since all quantities are integers, the source's
`color_dist c1 c2 < T` holds exactly when `colorDistSq c1 c2 < T²`. -/
def colorDistSq (c1 c2 : Pixel) : Int :=
  ((c1.r : Int) - c2.r) ^ 2 + ((c1.g : Int) - c2.g) ^ 2 + ((c1.b : Int) - c2.b) ^ 2

/-- The four corner coordinates `(0,0)`, `(W-1,0)`, `(0,H-1)`, `(W-1,H-1)`,
in the order the source's `starts` lists them. -/
def corners (w h : Nat) : List (Int × Int) :=
  [(0, 0), ((w : Int) - 1, 0), (0, (h : Int) - 1), ((w : Int) - 1, (h : Int) - 1)]

/-- The `is_bg` test of `remove_bg.py`: color `c` is within distance `T`
of some reference background color. -/
def isBg (c : Pixel) (bgColors : List Pixel) (T : Nat) : Prop :=
  ∃ bc ∈ bgColors, colorDistSq c bc < (T : Int) ^ 2

instance (c : Pixel) (bgColors : List Pixel) (T : Nat) : Decidable (isBg c bgColors T) := by
  unfold isBg; infer_instance

/-- The four 4-connectivity neighbor offsets, in the source's order. -/
def offsets4 : List (Int × Int) := [(-1, 0), (1, 0), (0, -1), (0, 1)]

/-- Moving from `p` by offset `d`. -/
def mv (p d : Int × Int) : Int × Int := (p.1 + d.1, p.2 + d.2)

/-- Overwrite one position of a pixel map. -/
def write (f : Int × Int → Pixel) (p : Int × Int) (c : Pixel) : Int × Int → Pixel :=
  fun q => if q = p then c else f q

/-- The neighbor-scanning `for` loop inside the flood fill of
`remove_bg.py`: for each offset in order, a neighbor of `p` that is
in bounds, not yet visited, and background-colored (w.r.t. the current
pixel map `f`) is added to the visited set and appended to the queue. -/
def expand (w h : Nat) (f : Int × Int → Pixel) (bg : List Pixel) (T : Nat) (p : Int × Int) :
    List (Int × Int) → Finset (Int × Int) → List (Int × Int) →
    Finset (Int × Int) × List (Int × Int)
  | [], vis, q => (vis, q)
  | d :: ds, vis, q =>
    if inBounds w h (mv p d) ∧ (mv p d) ∉ vis ∧ isBg (f (mv p d)) bg T then
      expand w h f bg T p ds (insert (mv p d) vis) (q ++ [mv p d])
    else expand w h f bg T p ds vis q

/-- The `while queue:` loop of `remove_bg.py`, with explicit fuel (the
source loop terminates because every enqueued pixel is first added to the
visited set; `remove_bg` supplies fuel exceeding the loop's step count).
Each iteration pops the queue head, writes the fully transparent black
pixel `(0,0,0,0)` there, and scans its four neighbors. -/
def floodLoop (w h : Nat) (bg : List Pixel) (T : Nat) :
    Nat → (Int × Int → Pixel) → Finset (Int × Int) → List (Int × Int) →
    (Int × Int → Pixel)
  | 0, f, _, _ => f
  | _ + 1, f, _, [] => f
  | fuel + 1, f, vis, p :: rest =>
    let f' := write f p ⟨0, 0, 0, 0⟩
    let st := expand w h f' bg T p offsets4 vis rest
    floodLoop w h bg T fuel f' st.1 st.2

/-- Background Segmenter, `remove_bg.py`: sample the four corner colors,
seed the queue and visited set with the corners, and flood-fill, zeroing
every dequeued pixel to RGBA `(0,0,0,0)`. -/
def remove_bg (img : Img) (T : Nat) : Img :=
  let starts := corners img.width img.height
  let bgColors := starts.map img.pix
  { img with
    pix := floodLoop img.width img.height bgColors T
      (4 + 2 * (img.height * img.width)) img.pix starts.toFinset starts }

/-- Flood-fill closure: the least set of coordinates containing the four
corners and closed under stepping to an in-bounds 4-neighbor whose color
in the ORIGINAL pixel map `f0` is within `T` of some reference color. -/
inductive InClosure (w h : Nat) (f0 : Int × Int → Pixel) (bg : List Pixel) (T : Nat) :
    Int × Int → Prop
  | seed (p : Int × Int) : p ∈ corners w h → InClosure w h f0 bg T p
  | step (p d : Int × Int) : InClosure w h f0 bg T p → d ∈ offsets4 →
      inBounds w h (mv p d) → isBg (f0 (mv p d)) bg T →
      InClosure w h f0 bg T (mv p d)

/-- The pixel map equal to `f0` except that every position in `W` holds
the fully transparent black pixel. -/
def zeroOn (f0 : Int × Int → Pixel) (W : Finset (Int × Int)) : Int × Int → Pixel :=
  fun p => if p ∈ W then ⟨0, 0, 0, 0⟩ else f0 p

/-! ### Correctness of the flood-fill loop -/

theorem expand_mono (w h : Nat) (f : Int × Int → Pixel) (bg : List Pixel) (T : Nat)
    (p : Int × Int) (ds : List (Int × Int)) :
    ∀ (vis : Finset (Int × Int)) (q : List (Int × Int)),
      vis ⊆ (expand w h f bg T p ds vis q).1 := by
  induction ds with
  | nil => intro vis q; simp [expand]
  | cons d ds ih =>
    intro vis q
    simp only [expand]
    split
    · exact (Finset.subset_insert _ _).trans (ih _ _)
    · exact ih _ _

theorem expand_union (w h : Nat) (f : Int × Int → Pixel) (bg : List Pixel) (T : Nat)
    (p : Int × Int) (ds : List (Int × Int)) :
    ∀ (vis : Finset (Int × Int)) (q : List (Int × Int)) (A : Finset (Int × Int)),
      vis = A ∪ q.toFinset →
      (expand w h f bg T p ds vis q).1 = A ∪ (expand w h f bg T p ds vis q).2.toFinset := by
  induction ds with
  | nil => intro vis q A hA; simpa [expand] using hA
  | cons d ds ih =>
    intro vis q A hA
    simp only [expand]
    split
    · refine ih _ _ A ?_
      subst hA
      ext x
      simp only [Finset.mem_insert, Finset.mem_union, List.mem_toFinset, List.mem_append,
        List.mem_singleton]
      tauto
    · exact ih _ _ A hA

theorem expand_bounds (w h : Nat) (f : Int × Int → Pixel) (bg : List Pixel) (T : Nat)
    (p : Int × Int) (ds : List (Int × Int)) :
    ∀ (vis : Finset (Int × Int)) (q : List (Int × Int)),
      (∀ x ∈ vis, inBounds w h x) →
      ∀ x ∈ (expand w h f bg T p ds vis q).1, inBounds w h x := by
  induction ds with
  | nil => intro vis q hv; simpa [expand] using hv
  | cons d ds ih =>
    intro vis q hv
    simp only [expand]
    split
    · rename_i hcond
      refine ih _ _ ?_
      intro x hx
      rcases Finset.mem_insert.mp hx with rfl | hx
      · exact hcond.1
      · exact hv x hx
    · exact ih _ _ hv

theorem expand_closure (w h : Nat) (f f0 : Int × Int → Pixel) (bg : List Pixel) (T : Nat)
    (p : Int × Int) (ds : List (Int × Int)) :
    ∀ (vis : Finset (Int × Int)) (q : List (Int × Int)),
      ds ⊆ offsets4 →
      (∀ m, m ∉ vis → f m = f0 m) →
      (∀ x ∈ vis, InClosure w h f0 bg T x) →
      InClosure w h f0 bg T p →
      ∀ x ∈ (expand w h f bg T p ds vis q).1, InClosure w h f0 bg T x := by
  induction ds with
  | nil => intro vis q _ _ hv _; simpa [expand] using hv
  | cons d ds ih =>
    intro vis q hds hf hv hp
    simp only [expand]
    split
    · rename_i hcond
      refine ih _ _ (fun x hx => hds (List.mem_cons_of_mem d hx)) ?_ ?_ hp
      · intro m hm
        exact hf m (fun hmv => hm (Finset.mem_insert_of_mem hmv))
      · intro x hx
        rcases Finset.mem_insert.mp hx with rfl | hx
        · refine InClosure.step p d hp (hds (List.mem_cons_self d ds)) hcond.1 ?_
          rw [← hf (mv p d) hcond.2.1]
          exact hcond.2.2
        · exact hv x hx
    · exact ih _ _ (fun x hx => hds (List.mem_cons_of_mem d hx)) hf hv hp

theorem expand_complete (w h : Nat) (f f0 : Int × Int → Pixel) (bg : List Pixel) (T : Nat)
    (p : Int × Int) (ds : List (Int × Int)) :
    ∀ (vis : Finset (Int × Int)) (q : List (Int × Int)),
      (∀ m, m ∉ vis → f m = f0 m) →
      ∀ d ∈ ds, inBounds w h (mv p d) → isBg (f0 (mv p d)) bg T →
        mv p d ∈ (expand w h f bg T p ds vis q).1 := by
  induction ds with
  | nil => intro vis q _ d hd; exact absurd hd (List.not_mem_nil d)
  | cons d' ds ih =>
    intro vis q hf d hd hin hbg
    rcases List.mem_cons.mp hd with rfl | hd
    · by_cases hvisd : mv p d ∈ vis
      · exact expand_mono w h f bg T p (d :: ds) vis q hvisd
      · have hcond : inBounds w h (mv p d) ∧ (mv p d) ∉ vis ∧ isBg (f (mv p d)) bg T := by
          refine ⟨hin, hvisd, ?_⟩
          rw [hf (mv p d) hvisd]
          exact hbg
        simp only [expand, if_pos hcond]
        exact expand_mono w h f bg T p ds _ _ (Finset.mem_insert_self _ _)
    · simp only [expand]
      split
      · refine ih _ _ ?_ d hd hin hbg
        intro m hm
        exact hf m (fun hmv => hm (Finset.mem_insert_of_mem hmv))
      · exact ih _ _ hf d hd hin hbg

theorem expand_measure (w h : Nat) (f : Int × Int → Pixel) (bg : List Pixel) (T : Nat)
    (p : Int × Int) (ds : List (Int × Int)) :
    ∀ (vis : Finset (Int × Int)) (q : List (Int × Int)),
      (expand w h f bg T p ds vis q).2.length +
        2 * ((inBF w h \ (expand w h f bg T p ds vis q).1).card) ≤
      q.length + 2 * ((inBF w h \ vis).card) := by
  induction ds with
  | nil => intro vis q; simp [expand]
  | cons d ds ih =>
    intro vis q
    simp only [expand]
    split
    · rename_i hcond
      have hmem : mv p d ∈ inBF w h \ vis :=
        Finset.mem_sdiff.mpr ⟨mem_inBF.mpr hcond.1, hcond.2.1⟩
      have hcard : (inBF w h \ insert (mv p d) vis).card = (inBF w h \ vis).card - 1 := by
        rw [Finset.sdiff_insert, Finset.card_erase_of_mem hmem]
      have hpos : 1 ≤ (inBF w h \ vis).card := Finset.card_pos.mpr ⟨mv p d, hmem⟩
      have := ih (insert (mv p d) vis) (q ++ [mv p d])
      rw [hcard, List.length_append] at this
      simp only [List.length_singleton] at this
      omega
    · exact ih vis q

theorem closure_subset (w h : Nat) (f0 : Int × Int → Pixel) (bg : List Pixel) (T : Nat)
    (V : Finset (Int × Int))
    (hseed : ∀ p ∈ corners w h, p ∈ V)
    (hclosed : ∀ p ∈ V, ∀ d ∈ offsets4,
      inBounds w h (mv p d) → isBg (f0 (mv p d)) bg T → mv p d ∈ V) :
    ∀ p, InClosure w h f0 bg T p → p ∈ V := by
  intro p hp
  induction hp with
  | seed p hp => exact hseed p hp
  | step p d _ hd hin hbg ih => exact hclosed p ih d hd hin hbg

theorem flood_final (w h : Nat) (f f0 : Int × Int → Pixel) (bg : List Pixel) (T : Nat)
    (W : Finset (Int × Int))
    (hf : ∀ m, f m = zeroOn f0 W m)
    (hcl : ∀ x ∈ W, InClosure w h f0 bg T x)
    (hclosed : ∀ x ∈ W, ∀ d ∈ offsets4,
      inBounds w h (mv x d) → isBg (f0 (mv x d)) bg T → mv x d ∈ W)
    (hcorners : ∀ x ∈ corners w h, x ∈ W) :
    ∀ m, (InClosure w h f0 bg T m → f m = ⟨0, 0, 0, 0⟩) ∧
         (¬ InClosure w h f0 bg T m → f m = f0 m) := by
  intro m
  constructor
  · intro hm
    have hmW : m ∈ W := closure_subset w h f0 bg T W hcorners hclosed m hm
    rw [hf m, zeroOn, if_pos hmW]
  · intro hm
    have hmW : m ∉ W := fun hmW => hm (hcl m hmW)
    rw [hf m, zeroOn, if_neg hmW]

theorem floodLoop_spec (w h : Nat) (f0 : Int × Int → Pixel) (bg : List Pixel) (T : Nat) :
    ∀ (fuel : Nat) (f : Int × Int → Pixel) (vis : Finset (Int × Int))
      (queue : List (Int × Int)) (W : Finset (Int × Int)),
    (∀ m, f m = zeroOn f0 W m) →
    vis = W ∪ queue.toFinset →
    (∀ x ∈ vis, InClosure w h f0 bg T x) →
    (∀ x ∈ vis, inBounds w h x) →
    (∀ x ∈ W, ∀ d ∈ offsets4,
      inBounds w h (mv x d) → isBg (f0 (mv x d)) bg T → mv x d ∈ vis) →
    (∀ x ∈ corners w h, x ∈ vis) →
    queue.length + 2 * ((inBF w h \ vis).card) ≤ fuel →
    ∀ m, (InClosure w h f0 bg T m →
            floodLoop w h bg T fuel f vis queue m = ⟨0, 0, 0, 0⟩) ∧
         (¬ InClosure w h f0 bg T m →
            floodLoop w h bg T fuel f vis queue m = f0 m) := by
  intro fuel
  induction fuel with
  | zero =>
    intro f vis queue W hf hvis hcl hbounds hclosed hcorners hfuel
    have hq : queue = [] := List.eq_nil_of_length_eq_zero (by omega)
    subst hq
    have hvW : vis = W := by simpa using hvis
    subst hvW
    simp only [floodLoop]
    exact flood_final w h f f0 bg T vis hf hcl hclosed hcorners
  | succ fuel ih =>
    intro f vis queue W hf hvis hcl hbounds hclosed hcorners hfuel
    match queue with
    | [] =>
      have hvW : vis = W := by simpa using hvis
      subst hvW
      simp only [floodLoop]
      exact flood_final w h f f0 bg T vis hf hcl hclosed hcorners
    | p :: rest =>
      have hpvis : p ∈ vis := by
        rw [hvis]
        exact Finset.mem_union_right _ (by simp)
      have hWvis : W ⊆ vis := by rw [hvis]; exact Finset.subset_union_left
      have hf' : ∀ m, m ∉ vis → write f p ⟨0, 0, 0, 0⟩ m = f0 m := by
        intro m hm
        have hmp : m ≠ p := fun he => hm (he ▸ hpvis)
        have hmW : m ∉ W := fun hmW => hm (hWvis hmW)
        rw [write, if_neg hmp, hf m, zeroOn, if_neg hmW]
      have hstep : floodLoop w h bg T (fuel + 1) f vis (p :: rest) =
          floodLoop w h bg T fuel (write f p ⟨0, 0, 0, 0⟩)
            (expand w h (write f p ⟨0, 0, 0, 0⟩) bg T p offsets4 vis rest).1
            (expand w h (write f p ⟨0, 0, 0, 0⟩) bg T p offsets4 vis rest).2 := rfl
      rw [hstep]
      set f' := write f p ⟨0, 0, 0, 0⟩ with hfwdef
      set st := expand w h f' bg T p offsets4 vis rest with hst
      refine ih f' st.1 st.2 (insert p W) ?_ ?_ ?_ ?_ ?_ ?_ ?_
      · intro m
        rw [hfwdef, write, zeroOn]
        by_cases hmp : m = p
        · subst hmp
          rw [if_pos rfl, if_pos (Finset.mem_insert_self _ _)]
        · rw [if_neg hmp, hf m, zeroOn]
          by_cases hmW : m ∈ W
          · rw [if_pos hmW, if_pos (Finset.mem_insert_of_mem hmW)]
          · rw [if_neg hmW, if_neg (by
              intro hc
              rcases Finset.mem_insert.mp hc with rfl | hc
              · exact hmp rfl
              · exact hmW hc)]
      · refine expand_union w h f' bg T p offsets4 vis rest (insert p W) ?_
        rw [hvis]
        ext x
        simp only [Finset.mem_union, List.mem_toFinset, List.mem_cons, Finset.mem_insert]
        tauto
      · exact expand_closure w h f' f0 bg T p offsets4 vis rest
          (fun x hx => hx) hf' hcl (hcl p hpvis)
      · exact expand_bounds w h f' bg T p offsets4 vis rest hbounds
      · intro x hx d hd hin hbg
        rcases Finset.mem_insert.mp hx with rfl | hx
        · exact expand_complete w h f' f0 bg T x offsets4 vis rest hf' d hd hin hbg
        · exact expand_mono w h f' bg T p offsets4 vis rest (hclosed x hx d hd hin hbg)
      · intro x hx
        exact expand_mono w h f' bg T p offsets4 vis rest (hcorners x hx)
      · have hme := expand_measure w h f' bg T p offsets4 vis rest
        rw [← hst] at hme
        simp only [List.length_cons] at hfuel
        omega

theorem corners_inBounds {w h : Nat} (hw : 0 < w) (hh : 0 < h) :
    ∀ p ∈ corners w h, inBounds w h p := by
  intro p hp
  simp only [corners, List.mem_cons, List.mem_singleton, List.not_mem_nil, or_false] at hp
  rcases hp with rfl | rfl | rfl | rfl <;> (unfold inBounds; constructor <;> omega)

/-- Full characterization of the Background Segmenter: a pixel inside the
flood-fill closure (computed from the original colors) comes out as RGBA
`(0,0,0,0)`; every pixel outside the closure is untouched. -/
theorem remove_bg_spec (img : Img) (T : Nat) (hw : 0 < img.width) (hh : 0 < img.height) :
    ∀ m, (InClosure img.width img.height img.pix
            ((corners img.width img.height).map img.pix) T m →
          (remove_bg img T).pix m = ⟨0, 0, 0, 0⟩) ∧
         (¬ InClosure img.width img.height img.pix
            ((corners img.width img.height).map img.pix) T m →
          (remove_bg img T).pix m = img.pix m) := by
  have hpix : (remove_bg img T).pix =
      floodLoop img.width img.height ((corners img.width img.height).map img.pix) T
        (4 + 2 * (img.height * img.width)) img.pix
        (corners img.width img.height).toFinset (corners img.width img.height) := rfl
  rw [hpix]
  refine floodLoop_spec img.width img.height img.pix
    ((corners img.width img.height).map img.pix) T
    (4 + 2 * (img.height * img.width)) img.pix
    (corners img.width img.height).toFinset (corners img.width img.height) ∅
    ?_ ?_ ?_ ?_ ?_ ?_ ?_
  · intro m; simp [zeroOn]
  · simp
  · intro x hx
    exact InClosure.seed x (List.mem_toFinset.mp hx)
  · intro x hx
    exact corners_inBounds hw hh x (List.mem_toFinset.mp hx)
  · intro x hx
    exact absurd hx (Finset.not_mem_empty x)
  · intro x hx
    exact List.mem_toFinset.mpr hx
  · have h1 : (corners img.width img.height).length = 4 := rfl
    have h2 : (inBF img.width img.height \ (corners img.width img.height).toFinset).card ≤
        img.height * img.width := by
      calc (inBF img.width img.height \ (corners img.width img.height).toFinset).card ≤
          (inBF img.width img.height).card := Finset.card_le_card (Finset.sdiff_subset)
        _ ≤ img.height * img.width := card_inBF_le _ _
    omega

/-! ### Concrete test rasters -/

/-- Concrete 1×1 test raster holding a single gray opaque pixel. -/
def gray1 : Img := { width := 1, height := 1, pix := fun _ => ⟨5, 5, 5, 255⟩ }

/-- Concrete 3×1 test raster: black corners and a center pixel that differs
from them by one unit in the blue channel. -/
def strip3 : Img :=
  { width := 3, height := 1,
    pix := fun p => if p = (1, 0) then ⟨0, 0, 1, 255⟩ else ⟨0, 0, 0, 255⟩ }

/-- Concrete 2×2 uniform gray test raster. -/
def quad2 : Img := { width := 2, height := 2, pix := fun _ => ⟨5, 5, 5, 255⟩ }

/-! ### Segmenter claims -/

/-- C2: for every raster whose four corners are in bounds and every
threshold `T ≥ 0`, the pixels the Segmenter zeroes are exactly the
flood-fill closure from the four corner pixels under 4-connectivity with
the predicate "Euclidean RGB distance to some corner-sampled reference
color strictly below `T`" (equivalently, squared distance below `T²`),
evaluated on the original pre-modification colors; every pixel inside the
closure comes out as RGBA `(0,0,0,0)` (in particular its alpha is zeroed)
and every pixel outside the closure is completely unaltered. -/
theorem C2_segmenter_flood_fill_exact (img : Img) (T : Nat)
    (hw : 0 < img.width) (hh : 0 < img.height) (m : Int × Int) :
    (InClosure img.width img.height img.pix
        ((corners img.width img.height).map img.pix) T m →
      (remove_bg img T).pix m = ⟨0, 0, 0, 0⟩) ∧
    (¬ InClosure img.width img.height img.pix
        ((corners img.width img.height).map img.pix) T m →
      (remove_bg img T).pix m = img.pix m) :=
  remove_bg_spec img T hw hh m

/-- Witness for C2 at a concrete input: in the uniform 2×2 gray raster the
corner (0,0) lies in the closure and is cleared to `(0,0,0,0)`, while the
(in fact empty) complement case is exercised through the first conjunct. -/
theorem C2_segmenter_flood_fill_exact_witness :
    (remove_bg quad2 10).pix (0, 0) = ⟨0, 0, 0, 0⟩ :=
  (C2_segmenter_flood_fill_exact quad2 10 (by decide) (by decide) (0, 0)).1
    (InClosure.seed (0, 0) (by decide))

theorem isBg_zero_false (c : Pixel) (bg : List Pixel) : ¬ isBg c bg 0 := by
  rintro ⟨bc, _, hlt⟩
  have h1 : (0 : Int) ≤ colorDistSq c bc := by
    unfold colorDistSq
    positivity
  simp only [Nat.cast_zero] at hlt
  omega

theorem closure_zero_subset_corners (w h : Nat) (f0 : Int × Int → Pixel) (bg : List Pixel) :
    ∀ p, InClosure w h f0 bg 0 p → p ∈ corners w h := by
  intro p hp
  induction hp with
  | seed p hp => exact hp
  | step p d _ _ _ hbg _ => exact absurd hbg (isBg_zero_false _ _)

/-- C3: with threshold `T = 0` the Segmenter only removes pixels whose RGB
exactly equals a corner color (indeed only the corners themselves), and
any pixel differing from every corner color by even one unit in one
channel is left completely unchanged. -/
theorem C3_threshold_zero_exact_match (img : Img)
    (hw : 0 < img.width) (hh : 0 < img.height) (p : Int × Int) :
    ((remove_bg img 0).pix p ≠ img.pix p →
      ∃ c ∈ corners img.width img.height,
        (img.pix p).r = (img.pix c).r ∧ (img.pix p).g = (img.pix c).g ∧
          (img.pix p).b = (img.pix c).b) ∧
    ((∀ c ∈ corners img.width img.height,
        (img.pix p).r ≠ (img.pix c).r ∨ (img.pix p).g ≠ (img.pix c).g ∨
          (img.pix p).b ≠ (img.pix c).b) →
      (remove_bg img 0).pix p = img.pix p) := by
  constructor
  · intro hchanged
    by_cases hcl : InClosure img.width img.height img.pix
        ((corners img.width img.height).map img.pix) 0 p
    · have hp : p ∈ corners img.width img.height :=
        closure_zero_subset_corners _ _ _ _ p hcl
      exact ⟨p, hp, rfl, rfl, rfl⟩
    · exact absurd ((remove_bg_spec img 0 hw hh p).2 hcl) hchanged
  · intro hdiff
    refine (remove_bg_spec img 0 hw hh p).2 ?_
    intro hcl
    have hp : p ∈ corners img.width img.height :=
      closure_zero_subset_corners _ _ _ _ p hcl
    rcases hdiff p hp with hne | hne | hne <;> exact hne rfl

/-- Witness for C3 at a concrete input: in the 3×1 strip whose center
pixel differs from the black corners by one unit of blue, threshold 0
leaves the center pixel untouched. -/
theorem C3_threshold_zero_exact_match_witness :
    (remove_bg strip3 0).pix (1, 0) = strip3.pix (1, 0) :=
  (C3_threshold_zero_exact_match strip3 (by decide) (by decide) (1, 0)).2 (by decide)

/-- C9: for every raster of width ≥ 1 and height ≥ 1 and every threshold
`T ≥ 0` (including 0), the Segmenter unconditionally sets each of the four
corner pixels to RGBA `(0,0,0,0)`: the corners are seeded into the queue
and zeroed without any color-distance check. -/
theorem C9_corners_unconditionally_cleared (img : Img) (T : Nat)
    (hw : 0 < img.width) (hh : 0 < img.height)
    (p : Int × Int) (hp : p ∈ corners img.width img.height) :
    (remove_bg img T).pix p = ⟨0, 0, 0, 0⟩ :=
  (remove_bg_spec img T hw hh p).1 (InClosure.seed p hp)

/-- Witness for C9 at a concrete input: threshold 0 on the 1×1 gray raster
still clears its (opaque, non-background-colored) corner pixel. -/
theorem C9_corners_unconditionally_cleared_witness :
    (remove_bg gray1 0).pix (0, 0) = ⟨0, 0, 0, 0⟩ :=
  C9_corners_unconditionally_cleared gray1 0 (by decide) (by decide) (0, 0) (by decide)


/-! ## Component Filter (`clean_artifacts.py`) -/

/-- 8-connectivity adjacency: distinct coordinates whose x and y
coordinates each differ by at most one (edge- or corner-adjacent). -/
def adj8 (p q : Int × Int) : Prop :=
  p ≠ q ∧ (p.1 - q.1).natAbs ≤ 1 ∧ (p.2 - q.2).natAbs ≤ 1

instance (p q : Int × Int) : Decidable (adj8 p q) := by
  unfold adj8; infer_instance

theorem adj8_symm {p q : Int × Int} (h : adj8 p q) : adj8 q p := by
  obtain ⟨h1, h2, h3⟩ := h
  exact ⟨fun he => h1 he.symm, by omega, by omega⟩

/-- Reachability from `p` inside the foreground set `F` through chains of
8-adjacent foreground pixels (the glossary's connected-component
relation). -/
inductive Reach (F : Finset (Int × Int)) (p : Int × Int) : Int × Int → Prop
  | refl : p ∈ F → Reach F p p
  | step (q r : Int × Int) : Reach F p q → adj8 q r → r ∈ F → Reach F p r

theorem Reach.mem_left {F : Finset (Int × Int)} {p q : Int × Int} (h : Reach F p q) :
    p ∈ F := by
  induction h with
  | refl hp => exact hp
  | step q r hpq hadj hr ih => exact ih

theorem Reach.mem_right {F : Finset (Int × Int)} {p q : Int × Int} (h : Reach F p q) :
    q ∈ F := by
  cases h with
  | refl hp => exact hp
  | step q r hpq hadj hr => exact hr

theorem Reach.trans {F : Finset (Int × Int)} {p q r : Int × Int}
    (h1 : Reach F p q) (h2 : Reach F q r) : Reach F p r := by
  induction h2 with
  | refl _ => exact h1
  | step b c hqb hadj hc ih => exact Reach.step b c ih hadj hc

theorem Reach.symm {F : Finset (Int × Int)} {p q : Int × Int} (h : Reach F p q) :
    Reach F q p := by
  induction h with
  | refl hp => exact Reach.refl hp
  | step q r hpq hadj hr ih =>
    exact Reach.trans (Reach.step r q (Reach.refl hr) (adj8_symm hadj) hpq.mem_right) ih

/-- Modelled from the spec (`cv2.connectedComponentsWithStats` is an
external library routine, absent from the sources): one breadth step of
component growth, adding every foreground pixel 8-adjacent to the
current set. -/
def growOnce (F S : Finset (Int × Int)) : Finset (Int × Int) :=
  S ∪ F.filter (fun q => ∃ r ∈ S, adj8 r q)

/-- Iterated component growth. -/
def grow (F : Finset (Int × Int)) : Nat → Finset (Int × Int) → Finset (Int × Int)
  | 0, S => S
  | n + 1, S => growOnce F (grow F n S)

/-- Modelled from the spec: the 8-connected component of `p` inside the
foreground set `F` (empty when `p` is not foreground), computed by
saturating the breadth step. -/
def reachSet (F : Finset (Int × Int)) (p : Int × Int) : Finset (Int × Int) :=
  if p ∈ F then grow F F.card {p} else ∅

theorem subset_growOnce (F S : Finset (Int × Int)) : S ⊆ growOnce F S :=
  Finset.subset_union_left

theorem grow_succ_subset (F S : Finset (Int × Int)) (n : Nat) :
    grow F n S ⊆ grow F (n + 1) S := subset_growOnce F _

theorem subset_grow (F S : Finset (Int × Int)) : ∀ n, S ⊆ grow F n S := by
  intro n
  induction n with
  | zero => exact fun x hx => hx
  | succ n ih => exact ih.trans (grow_succ_subset F S n)

theorem grow_subset_of_subset (F S : Finset (Int × Int)) (hS : S ⊆ F) :
    ∀ n, grow F n S ⊆ F := by
  intro n
  induction n with
  | zero => exact hS
  | succ n ih =>
    intro x hx
    rcases Finset.mem_union.mp hx with hx | hx
    · exact ih hx
    · exact (Finset.mem_filter.mp hx).1

theorem grow_stable (F S : Finset (Int × Int)) (n : Nat)
    (hfix : growOnce F (grow F n S) = grow F n S) :
    ∀ k, grow F (n + k) S = grow F n S := by
  intro k
  induction k with
  | zero => rfl
  | succ k ih => show growOnce F (grow F (n + k) S) = _; rw [ih, hfix]

theorem grow_reaches_fix (F S : Finset (Int × Int)) :
    ∀ n, (∃ m ≤ n, growOnce F (grow F m S) = grow F m S) ∨
      S.card + n ≤ (grow F n S).card := by
  intro n
  induction n with
  | zero => exact Or.inr (by simp [grow])
  | succ n ih =>
    rcases ih with ⟨m, hm, hfix⟩ | hcard
    · exact Or.inl ⟨m, hm.trans (Nat.le_succ n), hfix⟩
    · by_cases hfix : growOnce F (grow F n S) = grow F n S
      · exact Or.inl ⟨n, Nat.le_succ n, hfix⟩
      · refine Or.inr ?_
        have hss : grow F n S ⊂ grow F (n + 1) S :=
          Finset.ssubset_iff_subset_ne.mpr ⟨grow_succ_subset F S n, fun he => hfix he.symm⟩
        have := Finset.card_lt_card hss
        omega

theorem growOnce_grow_fix (F S : Finset (Int × Int)) (hS : S ⊆ F) (hne : S.Nonempty) :
    growOnce F (grow F F.card S) = grow F F.card S := by
  rcases grow_reaches_fix F S F.card with ⟨m, hm, hfix⟩ | hcard
  · obtain ⟨k, hk⟩ := Nat.exists_eq_add_of_le hm
    rw [hk, grow_stable F S m hfix k]
    exact hfix
  · have h1 : 1 ≤ S.card := Finset.card_pos.mpr hne
    have h2 : (grow F F.card S).card ≤ F.card :=
      Finset.card_le_card (grow_subset_of_subset F S hS F.card)
    omega

theorem grow_sound (F : Finset (Int × Int)) (p : Int × Int) (hp : p ∈ F) :
    ∀ n q, q ∈ grow F n {p} → Reach F p q := by
  intro n
  induction n with
  | zero =>
    intro q hq
    rw [grow, Finset.mem_singleton] at hq
    subst hq
    exact Reach.refl hp
  | succ n ih =>
    intro q hq
    rcases Finset.mem_union.mp hq with hq | hq
    · exact ih q hq
    · obtain ⟨hqF, r, hr, hadj⟩ := Finset.mem_filter.mp hq
      exact Reach.step r q (ih r hr) hadj hqF

theorem mem_reachSet {F : Finset (Int × Int)} {p q : Int × Int} :
    q ∈ reachSet F p ↔ Reach F p q := by
  unfold reachSet
  by_cases hp : p ∈ F
  · rw [if_pos hp]
    constructor
    · exact grow_sound F p hp F.card q
    · intro hr
      induction hr with
      | refl _ => exact subset_grow F {p} F.card (Finset.mem_singleton_self p)
      | step a b hpa hadj hb ih =>
        have hfix := growOnce_grow_fix F {p} (Finset.singleton_subset_iff.mpr hp)
          (Finset.singleton_nonempty p)
        rw [← hfix]
        exact Finset.mem_union_right _ (Finset.mem_filter.mpr ⟨hb, a, ih, hadj⟩)
  · rw [if_neg hp]
    simp only [Finset.not_mem_empty, false_iff]
    exact fun hr => hp hr.mem_left

theorem reachSet_eq_of_reach {F : Finset (Int × Int)} {p q : Int × Int}
    (h : Reach F p q) : reachSet F p = reachSet F q := by
  ext x
  rw [mem_reachSet, mem_reachSet]
  exact ⟨fun hx => h.symm.trans hx, fun hx => h.trans hx⟩

theorem nodup_positionsRM (w h : Nat) : (positionsRM w h).Nodup := by
  induction h with
  | zero => simp [positionsRM]
  | succ n ih =>
    rw [positionsRM, List.range_succ, List.flatMap_append] at *
    simp only [List.flatMap_cons, List.flatMap_nil, List.append_nil]
    refine List.Nodup.append ih ?_ ?_
    · refine List.Nodup.map ?_ (List.nodup_range w)
      intro a b hab
      simp only [Prod.mk.injEq] at hab
      exact_mod_cast hab.1
    · rw [List.disjoint_left]
      intro a ha hb
      rw [show (List.range n).flatMap
          (fun y => (List.range w).map (fun (x : Nat) => ((x : Int), (y : Int)))) =
          positionsRM w n from rfl, mem_positionsRM] at ha
      simp only [List.mem_map, List.mem_range] at hb
      obtain ⟨x, _, hx⟩ := hb
      obtain ⟨_, _, _, h4⟩ := ha
      rw [← hx] at h4
      simp only at h4
      omega

/-- Modelled from the spec: the first coordinate in row-major scan order
belonging to the component of `p` — the pixel at which that component is
discovered during the scan, which fixes the component's label order. -/
def compRep (F : Finset (Int × Int)) (w h : Nat) (p : Int × Int) : Int × Int :=
  ((positionsRM w h).find? (fun q => decide (q ∈ reachSet F p))).getD p

/-- Modelled from the spec: the component representatives (first pixels in
scan order of each 8-connected foreground region), in discovery order;
the component discovered `i`-th (0-based) receives label `i + 1`. -/
def repsList (F : Finset (Int × Int)) (w h : Nat) : List (Int × Int) :=
  (positionsRM w h).filter (fun p => decide (p ∈ F ∧ compRep F w h p = p))

/-- Index of the first occurrence of an element in a list of coordinates
(0 when absent). -/
def idxIn : List (Int × Int) → Int × Int → Nat
  | [], _ => 0
  | x :: xs, a => if x = a then 0 else idxIn xs a + 1

/-- Modelled from the spec: the label map of the component labeling —
0 for background pixels, `i + 1` for pixels of the `i`-th discovered
component. -/
def labelOf (F : Finset (Int × Int)) (w h : Nat) (p : Int × Int) : Nat :=
  if p ∈ F then idxIn (repsList F w h) (compRep F w h p) + 1 else 0

/-- Pixel area of label `l` (the `CC_STAT_AREA` statistic of the label). -/
def areaOfLabel (F : Finset (Int × Int)) (w h : Nat) (l : Nat) : Nat :=
  ((positionsRM w h).filter (fun p => decide (labelOf F w h p = l))).length

/-- Areas of the foreground labels `1..N` in label order: the array
`stats[1:, CC_STAT_AREA]` that `clean_artifacts.py` takes `np.argmax` of. -/
def areasList (F : Finset (Int × Int)) (w h : Nat) : List Nat :=
  (List.range (repsList F w h).length).map (fun i => areaOfLabel F w h (i + 1))

/-- Index of the first occurrence of the maximum of a list of naturals,
exactly `np.argmax`; 0 on the empty list. -/
def argmaxIdx : List Nat → Nat
  | [] => 0
  | x :: xs => if x < xs.getD (argmaxIdx xs) 0 then argmaxIdx xs + 1 else 0

/-- Foreground set of `clean_artifacts.py`: the support of the binarized
alpha mask `cv2.threshold(alpha, 0, 255, THRESH_BINARY)` — all in-bounds
pixels with non-zero alpha. -/
def foregroundOf (img : Img) : Finset (Int × Int) :=
  ((positionsRM img.width img.height).filter (fun p => decide (0 < (img.pix p).a))).toFinset

/-- Label count reported by the labeling, background label 0 included
(`num_labels` in `clean_artifacts.py`). -/
def numLabelsOf (img : Img) : Nat :=
  (repsList (foregroundOf img) img.width img.height).length + 1

/-- The winning label of `clean_artifacts.py`:
`np.argmax(stats[1:, CC_STAT_AREA]) + 1`. -/
def maxLabelOf (img : Img) : Nat :=
  argmaxIdx (areasList (foregroundOf img) img.width img.height) + 1

/-- Result of the Component Filter stage: the output raster together with
the flag modelling the two print branches — `true` when a
foreground component was found and kept, `false` for the distinct
"no components found besides background" signal. -/
structure FilterResult where
  img : Img
  found : Bool

/-- Component Filter, `clean_artifacts.py`: binarize alpha, label the
8-connected components of the binarized mask (labeling modelled from the
spec), select the largest-area label via `np.argmax` (first maximal
index), build the 255/0 keep-mask of the winning label, and AND it
bitwise into the alpha channel. When no component exists besides the
background the raster passes through unchanged with the distinct
no-component signal (`found = false`). -/
def clean_artifacts (img : Img) : FilterResult :=
  let F := foregroundOf img
  if 1 < numLabelsOf img then
    let mask : Int × Int → Nat := fun p =>
      if labelOf F img.width img.height p = maxLabelOf img then 255 else 0
    let newPix : Int × Int → Pixel := fun p =>
      if inBounds img.width img.height p then
        ⟨(img.pix p).r, (img.pix p).g, (img.pix p).b, (img.pix p).a &&& mask p⟩
      else img.pix p
    { img := { img with pix := newPix }, found := true }
  else { img := img, found := false }


theorem idxIn_lt_length {l : List (Int × Int)} {a : Int × Int} (ha : a ∈ l) :
    idxIn l a < l.length := by
  induction l with
  | nil => cases ha
  | cons x xs ih =>
    by_cases hx : x = a
    · rw [idxIn, if_pos hx]
      simp
    · rcases List.mem_cons.mp ha with rfl | ha'
      · exact absurd rfl hx
      · rw [idxIn, if_neg hx, List.length_cons]
        have := ih ha'
        omega

theorem idxIn_inj {l : List (Int × Int)} {a b : Int × Int}
    (ha : a ∈ l) (hb : b ∈ l) (heq : idxIn l a = idxIn l b) : a = b := by
  induction l with
  | nil => cases ha
  | cons x xs ih =>
    by_cases hxa : x = a <;> by_cases hxb : x = b
    · rw [← hxa, ← hxb]
    · rw [idxIn, if_pos hxa, idxIn, if_neg hxb] at heq
      omega
    · rw [idxIn, if_neg hxa, idxIn, if_pos hxb] at heq
      omega
    · rw [idxIn, if_neg hxa, idxIn, if_neg hxb] at heq
      rcases List.mem_cons.mp ha with rfl | ha'
      · exact absurd rfl hxa
      rcases List.mem_cons.mp hb with rfl | hb'
      · exact absurd rfl hxb
      exact ih ha' hb' (by omega)

theorem idxIn_get {l : List (Int × Int)} (hnd : l.Nodup) :
    ∀ (i : Nat) (hi : i < l.length), idxIn l (l.get ⟨i, hi⟩) = i := by
  induction l with
  | nil => intro i hi; exact absurd hi (by simp)
  | cons x xs ih =>
    intro i hi
    cases i with
    | zero => rw [idxIn]; simp
    | succ j =>
      have hget : (x :: xs).get ⟨j + 1, hi⟩ = xs.get ⟨j, by simpa using hi⟩ := rfl
      rw [hget, idxIn, if_neg ?_, ih (List.Nodup.of_cons hnd) j _]
      intro hx
      exact (List.nodup_cons.mp hnd).1 (hx ▸ List.get_mem _ j _)

theorem compRep_reach {F : Finset (Int × Int)} {w h : Nat} {p : Int × Int}
    (hF : ∀ x ∈ F, inBounds w h x) (hp : p ∈ F) :
    Reach F p (compRep F w h p) := by
  unfold compRep
  cases hfind : (positionsRM w h).find? (fun q => decide (q ∈ reachSet F p)) with
  | none =>
    exfalso
    have hnone := List.find?_eq_none.mp hfind p (mem_positionsRM.mpr (hF p hp))
    simp only [decide_eq_true_eq] at hnone
    exact hnone (mem_reachSet.mpr (Reach.refl hp))
  | some r =>
    rw [Option.getD_some]
    have hpr := List.find?_some hfind
    simp only [decide_eq_true_eq] at hpr
    exact mem_reachSet.mp hpr

theorem compRep_eq_of_reach {F : Finset (Int × Int)} {w h : Nat} {p q : Int × Int}
    (hF : ∀ x ∈ F, inBounds w h x) (hpq : Reach F p q) :
    compRep F w h p = compRep F w h q := by
  unfold compRep
  have hpred : (fun x => decide (x ∈ reachSet F p)) = (fun x => decide (x ∈ reachSet F q)) := by
    funext x
    rw [reachSet_eq_of_reach hpq]
  rw [hpred]
  cases hfind : (positionsRM w h).find? (fun x => decide (x ∈ reachSet F q)) with
  | none =>
    exfalso
    have hnone := List.find?_eq_none.mp hfind q (mem_positionsRM.mpr (hF q hpq.mem_right))
    simp only [decide_eq_true_eq] at hnone
    exact hnone (mem_reachSet.mpr (Reach.refl hpq.mem_right))
  | some r => rw [Option.getD_some, Option.getD_some]

theorem compRep_fix {F : Finset (Int × Int)} {w h : Nat} {p : Int × Int}
    (hF : ∀ x ∈ F, inBounds w h x) (hp : p ∈ F) :
    compRep F w h (compRep F w h p) = compRep F w h p :=
  (compRep_eq_of_reach hF (compRep_reach hF hp)).symm

theorem mem_repsList {F : Finset (Int × Int)} {w h : Nat}
    (hF : ∀ x ∈ F, inBounds w h x) {x : Int × Int} :
    x ∈ repsList F w h ↔ x ∈ F ∧ compRep F w h x = x := by
  unfold repsList
  rw [List.mem_filter]
  constructor
  · rintro ⟨-, hpred⟩
    exact of_decide_eq_true hpred
  · intro hx
    exact ⟨mem_positionsRM.mpr (hF x hx.1), decide_eq_true hx⟩

theorem compRep_mem_repsList {F : Finset (Int × Int)} {w h : Nat} {p : Int × Int}
    (hF : ∀ x ∈ F, inBounds w h x) (hp : p ∈ F) :
    compRep F w h p ∈ repsList F w h :=
  (mem_repsList hF).mpr ⟨(compRep_reach hF hp).mem_right, compRep_fix hF hp⟩

theorem nodup_repsList (F : Finset (Int × Int)) (w h : Nat) :
    (repsList F w h).Nodup :=
  List.Nodup.filter _ (nodup_positionsRM w h)

theorem labelOf_eq_zero_iff {F : Finset (Int × Int)} {w h : Nat} {p : Int × Int} :
    labelOf F w h p = 0 ↔ p ∉ F := by
  unfold labelOf
  split
  · rename_i hp
    simp only [Nat.succ_ne_zero, false_iff, not_not]
    exact hp
  · rename_i hp
    simp only [true_iff]
    exact hp

theorem labelOf_le {F : Finset (Int × Int)} {w h : Nat} {p : Int × Int}
    (hF : ∀ x ∈ F, inBounds w h x) (hp : p ∈ F) :
    labelOf F w h p ≤ (repsList F w h).length := by
  unfold labelOf
  rw [if_pos hp]
  have := idxIn_lt_length (compRep_mem_repsList hF hp)
  omega

theorem labelOf_eq_iff_reach {F : Finset (Int × Int)} {w h : Nat} {p q : Int × Int}
    (hF : ∀ x ∈ F, inBounds w h x) (hp : p ∈ F) (hq : q ∈ F) :
    labelOf F w h p = labelOf F w h q ↔ Reach F p q := by
  unfold labelOf
  rw [if_pos hp, if_pos hq]
  constructor
  · intro he
    have heq := idxIn_inj (compRep_mem_repsList hF hp)
      (compRep_mem_repsList hF hq) (by omega)
    have h1 := compRep_reach hF hp
    rw [heq] at h1
    exact h1.trans (compRep_reach hF hq).symm
  · intro hr
    rw [compRep_eq_of_reach hF hr]

theorem labelOf_get_rep {F : Finset (Int × Int)} {w h : Nat}
    (hF : ∀ x ∈ F, inBounds w h x) {i : Nat} (hi : i < (repsList F w h).length) :
    labelOf F w h ((repsList F w h).get ⟨i, hi⟩) = i + 1 := by
  have hmem : (repsList F w h).get ⟨i, hi⟩ ∈ repsList F w h := List.get_mem _ i hi
  obtain ⟨hrF, hfix⟩ := (mem_repsList hF).mp hmem
  unfold labelOf
  rw [if_pos hrF, hfix, idxIn_get (nodup_repsList F w h) i hi]

theorem argmaxIdx_lt_length : ∀ {l : List Nat}, l ≠ [] → argmaxIdx l < l.length := by
  intro l
  induction l with
  | nil => intro hne; exact absurd rfl hne
  | cons x xs ih =>
    intro _
    by_cases hxs : xs = []
    · subst hxs
      simp [argmaxIdx]
    · rw [argmaxIdx]
      split
      · have := ih hxs
        simp only [List.length_cons]
        omega
      · simp

theorem argmaxIdx_max : ∀ (l : List Nat) (i : Nat), i < l.length →
    l.getD i 0 ≤ l.getD (argmaxIdx l) 0 := by
  intro l
  induction l with
  | nil => intro i hi; simp at hi
  | cons x xs ih =>
    intro i hi
    rw [argmaxIdx]
    split
    · rename_i hlt
      rw [List.getD_cons_succ]
      cases i with
      | zero => rw [List.getD_cons_zero]; omega
      | succ j =>
        rw [List.getD_cons_succ]
        exact ih j (by simpa using hi)
    · rename_i hge
      rw [List.getD_cons_zero]
      cases i with
      | zero => rw [List.getD_cons_zero]
      | succ j =>
        rw [List.getD_cons_succ]
        have hj : j < xs.length := by simpa using hi
        have := ih j hj
        omega

theorem argmaxIdx_first : ∀ (l : List Nat) (i : Nat), i < argmaxIdx l →
    l.getD i 0 < l.getD (argmaxIdx l) 0 := by
  intro l
  induction l with
  | nil => intro i hi; simp [argmaxIdx] at hi
  | cons x xs ih =>
    intro i hi
    by_cases hc : x < xs.getD (argmaxIdx xs) 0
    · rw [argmaxIdx, if_pos hc] at hi ⊢
      rw [List.getD_cons_succ]
      cases i with
      | zero => rw [List.getD_cons_zero]; exact hc
      | succ j =>
        rw [List.getD_cons_succ]
        exact ih j (by omega)
    · rw [argmaxIdx, if_neg hc] at hi
      omega

theorem areasList_length (F : Finset (Int × Int)) (w h : Nat) :
    (areasList F w h).length = (repsList F w h).length := by
  simp [areasList]

theorem areasList_getD {F : Finset (Int × Int)} {w h : Nat} {l : Nat}
    (h1 : 1 ≤ l) (h2 : l ≤ (repsList F w h).length) :
    (areasList F w h).getD (l - 1) 0 = areaOfLabel F w h l := by
  unfold areasList
  have hlt : l - 1 < ((List.range (repsList F w h).length).map
      (fun i => areaOfLabel F w h (i + 1))).length := by
    simp only [List.length_map, List.length_range]
    omega
  rw [List.getD_eq_getElem _ 0 hlt, List.getElem_map, List.getElem_range]
  congr 1
  omega

theorem repsList_ne_nil {F : Finset (Int × Int)} {w h : Nat}
    (hF : ∀ x ∈ F, inBounds w h x) (hne : F.Nonempty) : repsList F w h ≠ [] := by
  obtain ⟨p, hp⟩ := hne
  intro he
  have := compRep_mem_repsList hF hp
  rw [he] at this
  cases this

theorem mem_foregroundOf {img : Img} {p : Int × Int} :
    p ∈ foregroundOf img ↔ inBounds img.width img.height p ∧ 0 < (img.pix p).a := by
  unfold foregroundOf
  rw [List.mem_toFinset, List.mem_filter, mem_positionsRM, decide_eq_true_eq]

theorem foregroundOf_bounds (img : Img) :
    ∀ x ∈ foregroundOf img, inBounds img.width img.height x :=
  fun _ hx => (mem_foregroundOf.mp hx).1

theorem land255_eq {n : Nat} (hn : n < 256) : n &&& 255 = n := by
  have hall : ∀ m, m < 256 → m &&& 255 = m := by decide
  exact hall n hn

theorem numLabelsOf_gt_one {img : Img} (hne : (foregroundOf img).Nonempty) :
    1 < numLabelsOf img := by
  unfold numLabelsOf
  have := repsList_ne_nil (foregroundOf_bounds img) hne
  have : (repsList (foregroundOf img) img.width img.height).length ≠ 0 := by
    intro he
    exact this (List.eq_nil_of_length_eq_zero he)
  omega

theorem maxLabelOf_le {img : Img} (hne : (foregroundOf img).Nonempty) :
    maxLabelOf img ≤ (repsList (foregroundOf img) img.width img.height).length := by
  unfold maxLabelOf
  have hnn : areasList (foregroundOf img) img.width img.height ≠ [] := by
    intro he
    have := areasList_length (foregroundOf img) img.width img.height
    rw [he] at this
    exact repsList_ne_nil (foregroundOf_bounds img) hne
      (List.eq_nil_of_length_eq_zero this.symm)
  have := argmaxIdx_lt_length hnn
  rw [areasList_length] at this
  omega

theorem clean_artifacts_pix_kept {img : Img} (hN : 1 < numLabelsOf img)
    {p : Int × Int} (hp : inBounds img.width img.height p) :
    (clean_artifacts img).img.pix p =
      ⟨(img.pix p).r, (img.pix p).g, (img.pix p).b,
        (img.pix p).a &&&
          (if labelOf (foregroundOf img) img.width img.height p = maxLabelOf img
            then 255 else 0)⟩ := by
  unfold clean_artifacts
  rw [if_pos hN]
  simp only [if_pos hp]

theorem clean_artifacts_pix_oob {img : Img} (hN : 1 < numLabelsOf img)
    {p : Int × Int} (hp : ¬ inBounds img.width img.height p) :
    (clean_artifacts img).img.pix p = img.pix p := by
  unfold clean_artifacts
  rw [if_pos hN]
  simp only [if_neg hp]

theorem clean_artifacts_noop {img : Img} (hN : ¬ 1 < numLabelsOf img) :
    clean_artifacts img = ⟨img, false⟩ := by
  unfold clean_artifacts
  rw [if_neg hN]

/-- Concrete 3×1 test raster: two isolated opaque spots at the ends with
distinct, non-255 alpha values, and a transparent center pixel. -/
def spots3 : Img :=
  { width := 3, height := 1,
    pix := fun p =>
      if p = (0, 0) then ⟨1, 2, 3, 200⟩
      else if p = (2, 0) then ⟨4, 5, 6, 77⟩
      else ⟨0, 0, 0, 0⟩ }

/-- Concrete 2×2 all-transparent test raster with non-zero RGB data. -/
def blank2 : Img := { width := 2, height := 2, pix := fun _ => ⟨3, 4, 5, 0⟩ }

/-! ### Filter claims -/

/-- C4: for every 8-bit raster with at least one non-zero-alpha pixel,
every pixel retained by the Component Filter (a pixel bearing the winning
label) keeps exactly its input alpha (not flattened to 255), and every
other in-bounds pixel ends with alpha 0. -/
theorem C4_filter_preserves_alpha (img : Img) (hval : img.Valid)
    (hfg : ∃ p, inBounds img.width img.height p ∧ 0 < (img.pix p).a)
    (p : Int × Int) :
    (labelOf (foregroundOf img) img.width img.height p = maxLabelOf img →
      ((clean_artifacts img).img.pix p).a = (img.pix p).a) ∧
    (inBounds img.width img.height p →
      labelOf (foregroundOf img) img.width img.height p ≠ maxLabelOf img →
      ((clean_artifacts img).img.pix p).a = 0) := by
  obtain ⟨q, hq1, hq2⟩ := hfg
  have hne : (foregroundOf img).Nonempty := ⟨q, mem_foregroundOf.mpr ⟨hq1, hq2⟩⟩
  have hN := numLabelsOf_gt_one hne
  constructor
  · intro hlab
    have hml : 1 ≤ maxLabelOf img := by unfold maxLabelOf; omega
    have hpF : p ∈ foregroundOf img := by
      by_contra hpF
      rw [labelOf_eq_zero_iff.mpr hpF] at hlab
      omega
    have hpb := foregroundOf_bounds img p hpF
    rw [clean_artifacts_pix_kept hN hpb]
    simp only [if_pos hlab]
    exact land255_eq (hval p (mem_positionsRM.mpr hpb)).2.2.2
  · intro hpb hlab
    rw [clean_artifacts_pix_kept hN hpb]
    simp only [if_neg hlab]
    simp

/-- Witness for C4 at a concrete input: in the 3×1 two-spot raster the
winning spot keeps its alpha value 200 exactly, and the losing spot's
alpha is zeroed. -/
theorem C4_filter_preserves_alpha_witness :
    ((clean_artifacts spots3).img.pix (0, 0)).a = (spots3.pix (0, 0)).a ∧
    ((clean_artifacts spots3).img.pix (2, 0)).a = 0 :=
  ⟨(C4_filter_preserves_alpha spots3 (by decide) ⟨(0, 0), by decide⟩ (0, 0)).1
      (by decide),
   (C4_filter_preserves_alpha spots3 (by decide) ⟨(0, 0), by decide⟩ (2, 0)).2
      (by decide) (by decide)⟩

/-- C6: for every raster with at least one non-zero-alpha pixel, the
Component Filter's selected label is a genuine label (between 1 and the
component count), its area is maximal among all labels, and among labels
of the same (maximal) area the selected one is the lowest label id —
i.e. the component discovered first in scan order; the selection is a
pure function of the raster, hence deterministic. -/
theorem C6_filter_argmax_tiebreak (img : Img)
    (hfg : ∃ p, inBounds img.width img.height p ∧ 0 < (img.pix p).a) :
    (1 ≤ maxLabelOf img ∧ maxLabelOf img + 1 ≤ numLabelsOf img) ∧
    (∀ l, 1 ≤ l → l + 1 ≤ numLabelsOf img →
      areaOfLabel (foregroundOf img) img.width img.height l ≤
        areaOfLabel (foregroundOf img) img.width img.height (maxLabelOf img)) ∧
    (∀ l, 1 ≤ l → l + 1 ≤ numLabelsOf img →
      areaOfLabel (foregroundOf img) img.width img.height l =
        areaOfLabel (foregroundOf img) img.width img.height (maxLabelOf img) →
      maxLabelOf img ≤ l) := by
  obtain ⟨q, hq1, hq2⟩ := hfg
  have hne : (foregroundOf img).Nonempty := ⟨q, mem_foregroundOf.mpr ⟨hq1, hq2⟩⟩
  have hml1 : 1 ≤ maxLabelOf img := by unfold maxLabelOf; omega
  have hb := maxLabelOf_le hne
  have hnum : numLabelsOf img =
      (repsList (foregroundOf img) img.width img.height).length + 1 := rfl
  have hmlsub : maxLabelOf img - 1 =
      argmaxIdx (areasList (foregroundOf img) img.width img.height) := by
    unfold maxLabelOf
    omega
  have hmlgetD : (areasList (foregroundOf img) img.width img.height).getD
      (argmaxIdx (areasList (foregroundOf img) img.width img.height)) 0 =
      areaOfLabel (foregroundOf img) img.width img.height (maxLabelOf img) := by
    rw [← hmlsub]
    exact areasList_getD hml1 hb
  refine ⟨⟨hml1, by omega⟩, ?_, ?_⟩
  · intro l hl1 hl2
    have hlN : l ≤ (repsList (foregroundOf img) img.width img.height).length := by omega
    have h1 := argmaxIdx_max (areasList (foregroundOf img) img.width img.height)
      (l - 1) (by rw [areasList_length]; omega)
    rw [areasList_getD hl1 hlN, hmlgetD] at h1
    exact h1
  · intro l hl1 hl2 heq
    by_contra hlt
    push_neg at hlt
    have hlN : l ≤ (repsList (foregroundOf img) img.width img.height).length := by omega
    have h2 := argmaxIdx_first (areasList (foregroundOf img) img.width img.height)
      (l - 1) (by omega)
    rw [areasList_getD hl1 hlN, hmlgetD] at h2
    omega

/-- Witness for C6 at a concrete input: the 3×1 raster with two tied
area-1 components; the selected label is label 1 (the component
discovered first in scan order), which is ≤ the tied label 2. -/
theorem C6_filter_argmax_tiebreak_witness :
    (1 ≤ maxLabelOf spots3 ∧ maxLabelOf spots3 + 1 ≤ numLabelsOf spots3) ∧
    maxLabelOf spots3 ≤ 2 :=
  ⟨(C6_filter_argmax_tiebreak spots3 ⟨(0, 0), by decide⟩).1,
   (C6_filter_argmax_tiebreak spots3 ⟨(0, 0), by decide⟩).2.2 2
      (by decide) (by decide) (by decide)⟩

/-- C8: on a raster whose every in-bounds pixel has alpha 0 the Component
Filter does not fail, returns every pixel unchanged, and reports the
distinct no-component signal (`found = false`, the "no components found
besides background" branch) rather than an error. -/
theorem C8_filter_all_transparent_noop (img : Img)
    (hall : ∀ p, inBounds img.width img.height p → (img.pix p).a = 0) :
    (∀ p, (clean_artifacts img).img.pix p = img.pix p) ∧
      (clean_artifacts img).found = false := by
  have hF : foregroundOf img = ∅ := by
    rw [Finset.eq_empty_iff_forall_not_mem]
    intro p hp
    obtain ⟨hpb, hpa⟩ := mem_foregroundOf.mp hp
    rw [hall p hpb] at hpa
    exact Nat.lt_irrefl 0 hpa
  have hreps : repsList (foregroundOf img) img.width img.height = [] := by
    unfold repsList
    rw [List.filter_eq_nil_iff]
    intro a _
    simp [hF]
  have hN : ¬ 1 < numLabelsOf img := by
    unfold numLabelsOf
    rw [hreps]
    simp
  rw [clean_artifacts_noop hN]
  exact ⟨fun _ => rfl, rfl⟩

/-- Witness for C8 at a concrete input: the all-transparent 2×2 raster
passes through pixel-unchanged with the no-component signal raised. -/
theorem C8_filter_all_transparent_noop_witness :
    (clean_artifacts blank2).img.pix (0, 0) = blank2.pix (0, 0) ∧
      (clean_artifacts blank2).found = false :=
  ⟨(C8_filter_all_transparent_noop blank2 (fun _ _ => rfl)).1 (0, 0),
   (C8_filter_all_transparent_noop blank2 (fun _ _ => rfl)).2⟩

theorem pixel_ext {p q : Pixel} (h1 : p.r = q.r) (h2 : p.g = q.g)
    (h3 : p.b = q.b) (h4 : p.a = q.a) : p = q := by
  cases p
  cases q
  simp_all

theorem reach_in_class {F C : Finset (Int × Int)} {p0 : Int × Int}
    (hC : ∀ x, x ∈ C ↔ x ∈ F ∧ Reach F p0 x) {p q : Int × Int}
    (hpq : Reach F p q) (hp0p : Reach F p0 p) : Reach C p q := by
  induction hpq with
  | refl hp => exact Reach.refl ((hC p).mpr ⟨hp, hp0p⟩)
  | step a b hpa hadj hb ih =>
    exact Reach.step a b ih hadj
      ((hC b).mpr ⟨hb, hp0p.trans (Reach.step a b hpa hadj hb)⟩)

theorem filter_eq_singleton {l : List (Int × Int)} {pr : Int × Int → Bool}
    {a : Int × Int} (hnd : l.Nodup) (ha : a ∈ l)
    (hiff : ∀ x ∈ l, pr x = true ↔ x = a) : l.filter pr = [a] := by
  induction l with
  | nil => cases ha
  | cons x xs ih =>
    rcases List.mem_cons.mp ha with rfl | ha'
    · rw [List.filter_cons_of_pos ((hiff a (List.mem_cons_self a xs)).mpr rfl)]
      have hnil : xs.filter pr = [] := by
        rw [List.filter_eq_nil_iff]
        intro y hy hpy
        have := (hiff y (List.mem_cons_of_mem a hy)).mp hpy
        exact (List.nodup_cons.mp hnd).1 (this ▸ hy)
      rw [hnil]
    · have hx : ¬ pr x = true := by
        intro hpx
        have := (hiff x (List.mem_cons_self x xs)).mp hpx
        exact (List.nodup_cons.mp hnd).1 (this ▸ ha')
      rw [List.filter_cons_of_neg hx]
      exact ih (List.Nodup.of_cons hnd) ha'
        (fun y hy => hiff y (List.mem_cons_of_mem x hy))

theorem repsList_single {C : Finset (Int × Int)} {w h : Nat}
    (hC : ∀ x ∈ C, inBounds w h x) (hne : C.Nonempty)
    (hconn : ∀ p q, p ∈ C → q ∈ C → Reach C p q) :
    ∃ r, r ∈ C ∧ repsList C w h = [r] := by
  obtain ⟨p0, hp0⟩ := hne
  have hr0C : compRep C w h p0 ∈ C := (compRep_reach hC hp0).mem_right
  refine ⟨compRep C w h p0, hr0C, ?_⟩
  unfold repsList
  refine filter_eq_singleton (nodup_positionsRM w h)
    (mem_positionsRM.mpr (hC _ hr0C)) ?_
  intro x _
  rw [decide_eq_true_eq]
  constructor
  · rintro ⟨hxC, hfix⟩
    rw [← hfix]
    exact compRep_eq_of_reach hC (hconn x p0 hxC hp0)
  · rintro rfl
    exact ⟨hr0C, compRep_fix hC hp0⟩

theorem labelOf_single {C : Finset (Int × Int)} {w h : Nat}
    (hC : ∀ x ∈ C, inBounds w h x) (hne : C.Nonempty)
    (hconn : ∀ p q, p ∈ C → q ∈ C → Reach C p q) :
    ∀ x ∈ C, labelOf C w h x = 1 := by
  obtain ⟨r, hrC, hreps⟩ := repsList_single hC hne hconn
  intro x hx
  have hrep : compRep C w h x ∈ repsList C w h := compRep_mem_repsList hC hx
  rw [hreps, List.mem_singleton] at hrep
  unfold labelOf
  rw [if_pos hx, hreps, hrep, idxIn, if_pos rfl]

theorem clean_artifacts_width (img : Img) :
    (clean_artifacts img).img.width = img.width := by
  unfold clean_artifacts
  split <;> rfl

theorem clean_artifacts_height (img : Img) :
    (clean_artifacts img).img.height = img.height := by
  unfold clean_artifacts
  split <;> rfl

/-- C5: the Component Filter is idempotent on 8-bit rasters: running it on
its own output changes no pixel compared with running it once. -/
theorem C5_filter_idempotent (img : Img) (hval : img.Valid) (p : Int × Int) :
    (clean_artifacts (clean_artifacts img).img).img.pix p =
      (clean_artifacts img).img.pix p := by
  by_cases hN : 1 < numLabelsOf img
  case neg =>
    have h1 : (clean_artifacts img).img = img := by rw [clean_artifacts_noop hN]
    rw [h1, h1]
  case pos =>
    have hF : ∀ x ∈ foregroundOf img, inBounds img.width img.height x :=
      foregroundOf_bounds img
    have hNlen : 1 ≤ (repsList (foregroundOf img) img.width img.height).length := by
      unfold numLabelsOf at hN
      omega
    have hFne : (foregroundOf img).Nonempty := by
      have hmem := List.get_mem (repsList (foregroundOf img) img.width img.height)
        0 (by omega)
      exact ⟨_, ((mem_repsList hF).mp hmem).1⟩
    have hml1 : 1 ≤ maxLabelOf img := by unfold maxLabelOf; omega
    have hmlN : maxLabelOf img ≤
        (repsList (foregroundOf img) img.width img.height).length := maxLabelOf_le hFne
    have hidx : maxLabelOf img - 1 <
        (repsList (foregroundOf img) img.width img.height).length := by omega
    set rstar := (repsList (foregroundOf img) img.width img.height).get
      ⟨maxLabelOf img - 1, hidx⟩ with hrstar
    have hlabr : labelOf (foregroundOf img) img.width img.height rstar =
        maxLabelOf img := by
      rw [hrstar, labelOf_get_rep hF hidx]
      omega
    have hrF : rstar ∈ foregroundOf img := by
      by_contra hc
      rw [labelOf_eq_zero_iff.mpr hc] at hlabr
      omega
    have hwOut : (clean_artifacts img).img.width = img.width := clean_artifacts_width img
    have hhOut : (clean_artifacts img).img.height = img.height := clean_artifacts_height img
    have hOutA : ∀ x, inBounds img.width img.height x →
        ((clean_artifacts img).img.pix x).a =
          (if labelOf (foregroundOf img) img.width img.height x = maxLabelOf img
            then (img.pix x).a else 0) := by
      intro x hx
      rw [clean_artifacts_pix_kept hN hx]
      by_cases hl : labelOf (foregroundOf img) img.width img.height x = maxLabelOf img
      · rw [if_pos hl, if_pos hl]
        exact land255_eq (hval x (mem_positionsRM.mpr hx)).2.2.2
      · rw [if_neg hl, if_neg hl]
        simp
    have hFwin : foregroundOf (clean_artifacts img).img =
        (foregroundOf img).filter
          (fun x => labelOf (foregroundOf img) img.width img.height x =
            maxLabelOf img) := by
      ext x
      rw [mem_foregroundOf, Finset.mem_filter, hwOut, hhOut]
      constructor
      · rintro ⟨hxb, hxa⟩
        rw [hOutA x hxb] at hxa
        by_cases hl : labelOf (foregroundOf img) img.width img.height x = maxLabelOf img
        · rw [if_pos hl] at hxa
          exact ⟨mem_foregroundOf.mpr ⟨hxb, hxa⟩, hl⟩
        · rw [if_neg hl] at hxa
          exact absurd hxa (Nat.lt_irrefl 0)
      · rintro ⟨hxF, hl⟩
        obtain ⟨hxb, hxa⟩ := mem_foregroundOf.mp hxF
        refine ⟨hxb, ?_⟩
        rw [hOutA x hxb, if_pos hl]
        exact hxa
    have hclass : ∀ x, x ∈ foregroundOf (clean_artifacts img).img ↔
        x ∈ foregroundOf img ∧ Reach (foregroundOf img) rstar x := by
      intro x
      rw [hFwin, Finset.mem_filter]
      constructor
      · rintro ⟨hxF, hl⟩
        rw [← hlabr] at hl
        exact ⟨hxF, ((labelOf_eq_iff_reach hF hxF hrF).mp hl).symm⟩
      · rintro ⟨hxF, hr⟩
        refine ⟨hxF, ?_⟩
        rw [← hlabr]
        exact (labelOf_eq_iff_reach hF hxF hrF).mpr hr.symm
    have hCsub : ∀ x ∈ foregroundOf (clean_artifacts img).img,
        inBounds img.width img.height x :=
      fun x hx => hF x ((hclass x).mp hx).1
    have hCne : (foregroundOf (clean_artifacts img).img).Nonempty :=
      ⟨rstar, (hclass rstar).mpr ⟨hrF, Reach.refl hrF⟩⟩
    have hconn : ∀ a b, a ∈ foregroundOf (clean_artifacts img).img →
        b ∈ foregroundOf (clean_artifacts img).img →
        Reach (foregroundOf (clean_artifacts img).img) a b := by
      intro a b ha hb
      obtain ⟨haF, hra⟩ := (hclass a).mp ha
      obtain ⟨hbF, hrb⟩ := (hclass b).mp hb
      exact reach_in_class hclass (hra.symm.trans hrb) hra
    obtain ⟨r0, hr0C, hreps0⟩ := repsList_single hCsub hCne hconn
    have hlab1 := labelOf_single hCsub hCne hconn
    have hN2 : 1 < numLabelsOf (clean_artifacts img).img := by
      unfold numLabelsOf
      rw [hwOut, hhOut, hreps0]
      simp
    have hml2 : maxLabelOf (clean_artifacts img).img = 1 := by
      unfold maxLabelOf
      rw [hwOut, hhOut]
      unfold areasList
      rw [hreps0]
      simp [argmaxIdx]
    by_cases hpb : inBounds img.width img.height p
    · have hpb' : inBounds (clean_artifacts img).img.width
          (clean_artifacts img).img.height p := by
        rw [hwOut, hhOut]
        exact hpb
      rw [clean_artifacts_pix_kept hN2 hpb']
      refine pixel_ext rfl rfl rfl ?_
      rw [hwOut, hhOut, hml2]
      by_cases hpC : p ∈ foregroundOf (clean_artifacts img).img
      · rw [if_pos (hlab1 p hpC)]
        have hlmax : labelOf (foregroundOf img) img.width img.height p =
            maxLabelOf img := by
          have hpC' := hpC
          rw [hFwin] at hpC'
          exact (Finset.mem_filter.mp hpC').2
        have ha : ((clean_artifacts img).img.pix p).a = (img.pix p).a := by
          rw [hOutA p hpb, if_pos hlmax]
        rw [ha]
        exact land255_eq (hval p (mem_positionsRM.mpr hpb)).2.2.2
      · have hl0 : labelOf (foregroundOf (clean_artifacts img).img)
            img.width img.height p = 0 := labelOf_eq_zero_iff.mpr hpC
        rw [hl0]
        have ha0 : ((clean_artifacts img).img.pix p).a = 0 := by
          by_contra hc
          exact hpC (mem_foregroundOf.mpr ⟨hpb', Nat.pos_of_ne_zero hc⟩)
        rw [ha0]
        simp
    · have hpb' : ¬ inBounds (clean_artifacts img).img.width
          (clean_artifacts img).img.height p := by
        rw [hwOut, hhOut]
        exact hpb
      exact clean_artifacts_pix_oob hN2 hpb'

/-- Witness for C5 at a concrete input: applying the Filter a second time
to the filtered 3×1 two-spot raster leaves the surviving spot's pixel
unchanged. -/
theorem C5_filter_idempotent_witness :
    (clean_artifacts (clean_artifacts spots3).img).img.pix (0, 0) =
      (clean_artifacts spots3).img.pix (0, 0) :=
  C5_filter_idempotent spots3 (by decide) (0, 0)

/-! ## Edge Refiner (`refine_edges.py`) -/

/-- The 3×3 neighborhood offsets (row-major). -/
def offsets9 : List (Int × Int) :=
  [(-1, -1), (0, -1), (1, -1), (-1, 0), (0, 0), (1, 0), (-1, 1), (0, 1), (1, 1)]

/-- One iteration of 3×3 erosion of the alpha channel (`cv2.erode` with
the all-ones `np.ones((3,3))` kernel): each pixel becomes the minimum
alpha over the in-bounds part of its 3×3 neighborhood. `cv2.erode`'s
default border value for erosion is +∞ (maximal), so out-of-bounds
neighbors impose no constraint; the fold is seeded with the pixel's own
alpha, which always belongs to the neighborhood. -/
def erodeA (img : Img) (p : Int × Int) : Nat :=
  (offsets9.filter
      (fun d => decide (inBounds img.width img.height (mv p d)))).foldl
    (fun m d => Nat.min m (img.pix (mv p d)).a) (img.pix p).a

/-- OpenCV's default `BORDER_REFLECT_101` coordinate reflection used by
`cv2.GaussianBlur`, specialized to indexes at most one step out of range
(the only reads a 3×3 kernel performs); `borderInterpolate` returns 0 for
single-pixel extents. -/
def reflect101 (n len : Int) : Int :=
  if len = 1 then 0
  else if n < 0 then -n
  else if len ≤ n then 2 * len - 2 - n
  else n

/-- Reflection of a coordinate pair into the raster. -/
def reflectPos (w h : Nat) (p : Int × Int) : Int × Int :=
  (reflect101 p.1 (w : Int), reflect101 p.2 (h : Int))

/-- Sixteen times the weight the fixed 3×3 Gaussian kernel (OpenCV's
kernel for size 3, sigma 0: `[1,2,1]ᵀ·[1,2,1] / 16`) gives offset `d`. -/
def gaussWeight (d : Int × Int) : Nat :=
  (if d.1 = 0 then 2 else 1) * (if d.2 = 0 then 2 else 1)

/-- 3×3 Gaussian blur of the eroded alpha channel
(`cv2.GaussianBlur(a_eroded, (3, 3), 0)` with the default
`BORDER_REFLECT_101` border), in fixed-point arithmetic with
round-half-up. -/
def blurA (img : Img) (p : Int × Int) : Nat :=
  ((offsets9.map (fun d =>
      gaussWeight d * erodeA img (reflectPos img.width img.height (mv p d)))).sum
    + 8) / 16

/-- Edge Refiner, `refine_edges.py`: split the four channels, erode the
alpha channel once with a 3×3 all-ones kernel, Gaussian-blur the eroded
alpha with a 3×3 kernel, and merge the original B, G, R channels back
with the new alpha. -/
def refine_edges (img : Img) : Img :=
  let newPix : Int × Int → Pixel := fun p =>
    if inBounds img.width img.height p then
      ⟨(img.pix p).r, (img.pix p).g, (img.pix p).b, blurA img p⟩
    else img.pix p
  { img with pix := newPix }

/-- Number of in-bounds pixels with non-zero alpha: the opaque region's
area. -/
def opaqueArea (img : Img) : Nat :=
  ((positionsRM img.width img.height).filter
    (fun p => decide (0 < (img.pix p).a))).length

/-- Number of in-bounds pixels whose eroded alpha is non-zero: the opaque
area after the Refiner's erosion step. -/
def erodedArea (img : Img) : Nat :=
  ((positionsRM img.width img.height).filter
    (fun p => decide (0 < erodeA img p))).length

theorem foldl_min_le_init (g : Int × Int → Nat) :
    ∀ (l : List (Int × Int)) (a : Nat),
      l.foldl (fun m d => Nat.min m (g d)) a ≤ a := by
  intro l
  induction l with
  | nil => intro a; exact Nat.le_refl a
  | cons x xs ih =>
    intro a
    calc xs.foldl (fun m d => Nat.min m (g d)) (Nat.min a (g x)) ≤ Nat.min a (g x) := ih _
      _ ≤ a := Nat.min_le_left _ _

theorem foldl_min_ge (g : Int × Int → Nat) (c : Nat) :
    ∀ (l : List (Int × Int)) (a : Nat), c ≤ a → (∀ d ∈ l, c ≤ g d) →
      c ≤ l.foldl (fun m d => Nat.min m (g d)) a := by
  intro l
  induction l with
  | nil => intro a ha _; exact ha
  | cons x xs ih =>
    intro a ha hl
    refine ih _ (le_min ha (hl x (List.mem_cons_self x xs))) ?_
    intro d hd
    exact hl d (List.mem_cons_of_mem x hd)

theorem erodeA_le (img : Img) (p : Int × Int) : erodeA img p ≤ (img.pix p).a :=
  foldl_min_le_init _ _ _

theorem countP_mono_aux {pa pb : Int × Int → Bool}
    (hip : ∀ x, pa x = true → pb x = true) :
    ∀ l : List (Int × Int), (l.filter pa).length ≤ (l.filter pb).length := by
  intro l
  induction l with
  | nil => exact Nat.le_refl 0
  | cons x xs ih =>
    by_cases hx : pa x = true
    · rw [List.filter_cons_of_pos hx, List.filter_cons_of_pos (hip x hx)]
      simpa using ih
    · rw [List.filter_cons_of_neg hx]
      by_cases hbx : pb x = true
      · rw [List.filter_cons_of_pos hbx]
        exact ih.trans (by simp)
      · rw [List.filter_cons_of_neg hbx]
        exact ih

/-- C7: the opaque region's area after the Edge Refiner's single 3×3
erosion iteration is at most the area before erosion (each pixel's eroded
value is the minimum alpha of its in-bounds 3×3 neighborhood — in
particular at most its own alpha, so no transparent pixel can become
opaque). -/
theorem C7_erosion_shrinks_area (img : Img) : erodedArea img ≤ opaqueArea img := by
  unfold erodedArea opaqueArea
  refine countP_mono_aux ?_ (positionsRM img.width img.height)
  intro x hx
  rw [decide_eq_true_eq] at hx ⊢
  exact Nat.lt_of_lt_of_le hx (erodeA_le img x)

theorem offsets9_small : ∀ d ∈ offsets9, -1 ≤ d.1 ∧ d.1 ≤ 1 ∧ -1 ≤ d.2 ∧ d.2 ≤ 1 := by
  decide

theorem reflect101_bounds {n len : Int} (hlen : 1 ≤ len) (h1 : -1 ≤ n) (h2 : n ≤ len) :
    0 ≤ reflect101 n len ∧ reflect101 n len < len := by
  unfold reflect101
  split_ifs <;> omega

theorem reflectPos_inBounds {w h : Nat} {p : Int × Int} (hp : inBounds w h p)
    {d : Int × Int} (hd : d ∈ offsets9) :
    inBounds w h (reflectPos w h (mv p d)) := by
  obtain ⟨h1, h2, h3, h4⟩ := hp
  obtain ⟨d1, d2, d3, d4⟩ := offsets9_small d hd
  have hx := @reflect101_bounds (p.1 + d.1) (w : Int) (by omega) (by omega) (by omega)
  have hy := @reflect101_bounds (p.2 + d.2) (h : Int) (by omega) (by omega) (by omega)
  exact ⟨hx.1, hx.2, hy.1, hy.2⟩

theorem erodeA_all_max {img : Img}
    (hall : ∀ p, inBounds img.width img.height p → (img.pix p).a = 255)
    {q : Int × Int} (hq : inBounds img.width img.height q) :
    erodeA img q = 255 := by
  refine Nat.le_antisymm ?_ ?_
  · calc erodeA img q ≤ (img.pix q).a := erodeA_le img q
      _ = 255 := hall q hq
  · refine foldl_min_ge _ 255 _ _ (by rw [hall q hq]) ?_
    intro d hd
    rw [List.mem_filter, decide_eq_true_eq] at hd
    rw [hall _ hd.2]

/-- C10: on a raster whose every in-bounds pixel is fully opaque
(alpha 255), the Edge Refiner outputs alpha 255 at every in-bounds pixel:
erosion treats out-of-bounds neighbors as maximal, so boundary pixels are
not eroded from outside the image, and the normalized 3×3 Gaussian blur
of a constant channel returns that constant. -/
theorem C10_refiner_constant_alpha (img : Img)
    (hall : ∀ p, inBounds img.width img.height p → (img.pix p).a = 255)
    (p : Int × Int) (hp : inBounds img.width img.height p) :
    ((refine_edges img).pix p).a = 255 := by
  have hmap : offsets9.map (fun d =>
      gaussWeight d * erodeA img (reflectPos img.width img.height (mv p d))) =
      offsets9.map (fun d => gaussWeight d * 255) := by
    refine List.map_congr_left ?_
    intro d hd
    rw [erodeA_all_max hall (reflectPos_inBounds hp hd)]
  have hpixeq : (refine_edges img).pix p =
      (if inBounds img.width img.height p then
        ⟨(img.pix p).r, (img.pix p).g, (img.pix p).b, blurA img p⟩
      else img.pix p) := rfl
  rw [hpixeq, if_pos hp]
  show blurA img p = 255
  unfold blurA
  rw [hmap]
  decide

/-- Concrete 2×2 fully opaque test raster with non-trivial RGB data. -/
def opaq2 : Img := { width := 2, height := 2, pix := fun _ => ⟨10, 20, 30, 255⟩ }

/-- Witness for C10 at a concrete input: the Refiner keeps the fully
opaque 2×2 raster's corner pixel at alpha 255. -/
theorem C10_refiner_constant_alpha_witness :
    ((refine_edges opaq2).pix (0, 0)).a = 255 :=
  C10_refiner_constant_alpha opaq2 (fun _ _ => rfl) (0, 0) (by decide)

/-! ### RGB invariance across the pipeline -/

theorem clean_artifacts_rgb (img : Img) (p : Int × Int) :
    ((clean_artifacts img).img.pix p).r = (img.pix p).r ∧
    ((clean_artifacts img).img.pix p).g = (img.pix p).g ∧
    ((clean_artifacts img).img.pix p).b = (img.pix p).b := by
  by_cases hN : 1 < numLabelsOf img
  · by_cases hpb : inBounds img.width img.height p
    · refine ⟨?_, ?_, ?_⟩ <;> rw [clean_artifacts_pix_kept hN hpb]
    · rw [clean_artifacts_pix_oob hN hpb]
      exact ⟨rfl, rfl, rfl⟩
  · rw [clean_artifacts_noop hN]
    exact ⟨rfl, rfl, rfl⟩

theorem refine_edges_rgb (img : Img) (p : Int × Int) :
    ((refine_edges img).pix p).r = (img.pix p).r ∧
    ((refine_edges img).pix p).g = (img.pix p).g ∧
    ((refine_edges img).pix p).b = (img.pix p).b := by
  have hpixeq : (refine_edges img).pix p =
      (if inBounds img.width img.height p then
        ⟨(img.pix p).r, (img.pix p).g, (img.pix p).b, blurA img p⟩
      else img.pix p) := rfl
  by_cases hpb : inBounds img.width img.height p
  · rw [hpixeq, if_pos hpb]
    exact ⟨rfl, rfl, rfl⟩
  · rw [hpixeq, if_neg hpb]
    exact ⟨rfl, rfl, rfl⟩

/-- Counterexample to C1 as stated: on the 1×1 gray raster the Segmenter
(and hence the whole pipeline) changes the R channel of pixel (0,0) from
5 to 0 — the flood fill overwrites removed pixels with RGBA `(0,0,0,0)`,
zeroing their RGB channels too. -/
theorem C1_counterexample_rgb_changed :
    ((remove_bg gray1 10).pix (0, 0)).r ≠ (gray1.pix (0, 0)).r ∧
    ((refine_edges (clean_artifacts (remove_bg gray1 10)).img).pix (0, 0)).r ≠
      (gray1.pix (0, 0)).r := by
  decide

/-- C1 (amended): the Component Filter and the Edge Refiner never modify
any RGB channel of any pixel; the Background Segmenter modifies a pixel
only by overwriting it entirely with transparent black `(0,0,0,0)`, so
RGB is preserved across the whole pipeline at exactly the pixels the
Segmenter does not remove. -/
theorem C1_rgb_modified_only_by_segmenter_clear (img : Img) (T : Nat)
    (hw : 0 < img.width) (hh : 0 < img.height) (p : Int × Int) :
    ((remove_bg img T).pix p = img.pix p ∨
      (remove_bg img T).pix p = ⟨0, 0, 0, 0⟩) ∧
    (((clean_artifacts img).img.pix p).r = (img.pix p).r ∧
      ((clean_artifacts img).img.pix p).g = (img.pix p).g ∧
      ((clean_artifacts img).img.pix p).b = (img.pix p).b) ∧
    (((refine_edges img).pix p).r = (img.pix p).r ∧
      ((refine_edges img).pix p).g = (img.pix p).g ∧
      ((refine_edges img).pix p).b = (img.pix p).b) := by
  refine ⟨?_, clean_artifacts_rgb img p, refine_edges_rgb img p⟩
  by_cases hcl : InClosure img.width img.height img.pix
      ((corners img.width img.height).map img.pix) T p
  · exact Or.inr ((remove_bg_spec img T hw hh p).1 hcl)
  · exact Or.inl ((remove_bg_spec img T hw hh p).2 hcl)

/-- Witness for the amended C1 at a concrete input. -/
theorem C1_rgb_modified_only_by_segmenter_clear_witness :
    ((remove_bg gray1 10).pix (0, 0) = gray1.pix (0, 0) ∨
      (remove_bg gray1 10).pix (0, 0) = ⟨0, 0, 0, 0⟩) ∧
    (((clean_artifacts gray1).img.pix (0, 0)).r = (gray1.pix (0, 0)).r ∧
      ((clean_artifacts gray1).img.pix (0, 0)).g = (gray1.pix (0, 0)).g ∧
      ((clean_artifacts gray1).img.pix (0, 0)).b = (gray1.pix (0, 0)).b) ∧
    (((refine_edges gray1).pix (0, 0)).r = (gray1.pix (0, 0)).r ∧
      ((refine_edges gray1).pix (0, 0)).g = (gray1.pix (0, 0)).g ∧
      ((refine_edges gray1).pix (0, 0)).b = (gray1.pix (0, 0)).b) :=
  C1_rgb_modified_only_by_segmenter_clear gray1 10 (by decide) (by decide) (0, 0)
